import Mathlib

/-!
Verification of the swhid-go library: canonical Git-style object hashing
(content, directory, revision, release, snapshot) and the SWHID identifier
grammar (parsing, formatting, qualifier codec).

Strings of the Go source are modelled as lists of byte values (`List Nat`),
matching Go's byte-oriented string semantics.  SHA-1 is embedded as an
executable function over byte lists, with 32-bit words represented as
natural numbers reduced modulo 2^32.
-/

/-- Byte list of an ASCII string literal (Go strings are byte strings; all
string literals appearing in the source are ASCII). -/
def str (s : String) : List Nat := s.data.map Char.toNat

/-! ### SHA-1 over byte lists -/

/-- Left-rotation of a 32-bit word. -/
def rotl32 (n x : Nat) : Nat := ((x <<< n) ||| (x >>> (32 - n))) % 4294967296

/-- SHA-1 round function, by round index. -/
def sha1F (i b c d : Nat) : Nat :=
  if i < 20 then (b &&& c) ||| ((b ^^^ 4294967295) &&& d)
  else if i < 40 then b ^^^ c ^^^ d
  else if i < 60 then (b &&& c) ||| (b &&& d) ||| (c &&& d)
  else b ^^^ c ^^^ d

/-- SHA-1 round constant, by round index. -/
def sha1K (i : Nat) : Nat :=
  if i < 20 then 1518500249
  else if i < 40 then 1859775393
  else if i < 60 then 2400959708
  else 3395469782

/-- Extend the 16 schedule words to 80.  The accumulator holds the words
generated so far, most recent first. -/
def sha1ScheduleAux : Nat → List Nat → List Nat
  | 0, acc => acc.reverse
  | k + 1, acc =>
    sha1ScheduleAux k
      (rotl32 1 ((acc.getD 2 0) ^^^ (acc.getD 7 0) ^^^ (acc.getD 13 0) ^^^ (acc.getD 15 0)) :: acc)

/-- The 80-word message schedule from the 16 words of one chunk. -/
def sha1Schedule (ws : List Nat) : List Nat := sha1ScheduleAux 64 ws.reverse

/-- The 80 compression rounds, folding over the schedule words. -/
def sha1Rounds : Nat → List Nat → Nat × Nat × Nat × Nat × Nat → Nat × Nat × Nat × Nat × Nat
  | _, [], st => st
  | i, w :: ws, (a, b, c, d, e) =>
    sha1Rounds (i + 1) ws
      ((rotl32 5 a + sha1F i b c d + e + sha1K i + w) % 4294967296, a, rotl32 30 b, c, d)

/-- Big-endian bytes of a value, fixed width. -/
def beBytes : Nat → Nat → List Nat
  | 0, _ => []
  | k + 1, v => beBytes k (v / 256) ++ [v % 256]

/-- Group bytes into big-endian 32-bit words. -/
def bytesToWords : List Nat → List Nat
  | a :: b :: c :: d :: rest => (((a * 256 + b) * 256 + c) * 256 + d) :: bytesToWords rest
  | _ => []

/-- Process a padded message in 64-byte chunks.  The first argument is fuel
bounding the number of chunks; callers pass the message length, which always
suffices since every step consumes 64 bytes of a non-empty message. -/
def sha1Chunks : Nat → List Nat → Nat × Nat × Nat × Nat × Nat → Nat × Nat × Nat × Nat × Nat
  | 0, _, h => h
  | _ + 1, [], h => h
  | fuel + 1, msg, (h0, h1, h2, h3, h4) =>
    match sha1Rounds 0 (sha1Schedule (bytesToWords (msg.take 64))) (h0, h1, h2, h3, h4) with
    | (a, b, c, d, e) =>
      sha1Chunks fuel (msg.drop 64)
        ((h0 + a) % 4294967296, (h1 + b) % 4294967296, (h2 + c) % 4294967296,
         (h3 + d) % 4294967296, (h4 + e) % 4294967296)

/-- SHA-1 padding: 0x80, zeros to 56 mod 64, then the bit length as 8
big-endian bytes. -/
def sha1Pad (msg : List Nat) : List Nat :=
  msg ++ 128 :: List.replicate ((64 - (msg.length + 9) % 64) % 64) 0 ++ beBytes 8 (msg.length * 8)

/-- The 20 digest bytes of SHA-1. -/
def sha1Bytes (msg : List Nat) : List Nat :=
  match sha1Chunks (sha1Pad msg).length (sha1Pad msg)
      (1732584193, 4023233417, 2562383102, 271733878, 3285377520) with
  | (h0, h1, h2, h3, h4) =>
    beBytes 4 h0 ++ beBytes 4 h1 ++ beBytes 4 h2 ++ beBytes 4 h3 ++ beBytes 4 h4

/-- A lowercase hex digit, as a byte. -/
def hexDigit (n : Nat) : Nat := if n < 10 then 48 + n else 87 + n

/-- Lowercase hex encoding of bytes (Go `hex.EncodeToString`). -/
def hexEncode : List Nat → List Nat
  | [] => []
  | b :: rest => hexDigit (b / 16) :: hexDigit (b % 16) :: hexEncode rest

/-- SHA-1 digest rendered as 40 lowercase hex bytes. -/
def sha1Hex (msg : List Nat) : List Nat := hexEncode (sha1Bytes msg)

/-! ### Decimal rendering and hex decoding -/

/-- Decimal digit bytes of a natural number, with fuel (the fuel `n + 1`
always suffices). -/
def decDigitsAux : Nat → Nat → List Nat
  | 0, _ => []
  | fuel + 1, n => if n < 10 then [48 + n] else decDigitsAux fuel (n / 10) ++ [48 + n % 10]

/-- Decimal digit bytes of a natural number (Go `%d` on a non-negative value). -/
def decDigits (n : Nat) : List Nat := decDigitsAux (n + 1) n

/-- Decimal rendering of an integer (Go `%d` on `int64`). -/
def intDec (i : Int) : List Nat := if i < 0 then 45 :: decDigits i.natAbs else decDigits i.toNat

/-- Value of one hex digit byte, if valid (Go `fromHexChar`). -/
def hexVal? (c : Nat) : Option Nat :=
  if 48 ≤ c ∧ c ≤ 57 then some (c - 48)
  else if 97 ≤ c ∧ c ≤ 102 then some (c - 87)
  else if 65 ≤ c ∧ c ≤ 70 then some (c - 55)
  else none

/-- Go `hex.DecodeString` with its error ignored: decodes hex digit pairs
until the first malformed pair (or odd trailing digit) and silently returns
only the bytes decoded before the error. -/
def hexDecodePartial : List Nat → List Nat
  | a :: b :: rest =>
    match hexVal? a, hexVal? b with
    | some x, some y => (x * 16 + y) :: hexDecodePartial rest
    | _, _ => []
  | _ => []

/-! ### Content hashing (objects/content.go) -/

/-- Go `ComputeContentHash`: the Git blob hash `sha1("blob <len>\0" ++ data)`. -/
def ComputeContentHash (data : List Nat) : List Nat :=
  sha1Hex (str "blob " ++ decDigits data.length ++ 0 :: data)

/-! ### Byte-wise string order (Go `<` on strings) -/

/-- Go's byte-wise lexicographic `<` on strings. -/
def bytesLt : List Nat → List Nat → Bool
  | [], [] => false
  | [], _ :: _ => true
  | _ :: _, [] => false
  | a :: as, b :: bs => if a < b then true else if b < a then false else bytesLt as bs

/-! ### Directory hashing (objects/directory.go, package objects) -/

/-- The `EntryType` of a directory entry. -/
inductive EntryType where
  | file
  | executable
  | directory
  | symlink
  | revision
deriving DecidableEq

/-- A `DirectoryEntry`: one entry of a directory (`Typ` embeds the source's
`Type` field, which is not a legal field name in Lean). -/
structure DirectoryEntry where
  Name : List Nat
  Typ : EntryType
  Target : List Nat
  Perms : List Nat
deriving DecidableEq

/-- Go `DirectoryEntry.DefaultPerms`: default Git permissions per entry type. -/
def DirectoryEntry.DefaultPerms (e : DirectoryEntry) : List Nat :=
  match e.Typ with
  | .directory => str "40000"
  | .file => str "100644"
  | .executable => str "100755"
  | .symlink => str "120000"
  | .revision => str "160000"

/-- Go `DirectoryEntry.Permissions`: explicit `Perms` if set, else the default. -/
def DirectoryEntry.Permissions (e : DirectoryEntry) : List Nat :=
  if e.Perms ≠ [] then e.Perms else e.DefaultPerms

/-- Go `DirectoryEntry.SortKey`: the name, with a trailing `/` appended for
directory entries. -/
def DirectoryEntry.SortKey (e : DirectoryEntry) : List Nat :=
  if e.Typ = .directory then e.Name ++ [47] else e.Name

/-- The ordering used by `sort.Slice` in `serializeEntries`, whose `less`
comparator is `SortKey i < SortKey j`: `a` may precede `b` iff
`¬(SortKey b < SortKey a)`.  The sort is modelled as a stable sort with this
comparator. -/
def entryLe (a b : DirectoryEntry) : Prop := bytesLt b.SortKey a.SortKey = false

instance : DecidableRel entryLe :=
  fun a b => inferInstanceAs (Decidable (bytesLt b.SortKey a.SortKey = false))

/-- Serialization of one sorted entry:
`"<perms> <name>\0<binary_hash>"`, with the target decoded from hex and any
decoding error silently ignored. -/
def serializeEntry (e : DirectoryEntry) : List Nat :=
  e.Permissions ++ 32 :: e.Name ++ 0 :: hexDecodePartial e.Target

/-- Go `serializeEntries`: sort the entries by sort key, then concatenate the
per-entry serializations. -/
def serializeEntries (entries : List DirectoryEntry) : List Nat :=
  (List.insertionSort entryLe entries).foldl (fun acc e => acc ++ serializeEntry e) []

/-- Go `ComputeDirectoryHash`: the Git tree hash
`sha1("tree <len>\0" ++ serialized)`. -/
def ComputeDirectoryHash (entries : List DirectoryEntry) : List Nat :=
  sha1Hex (str "tree " ++ decDigits (serializeEntries entries).length ++ 0 :: serializeEntries entries)

/-! ### Snapshot hashing (objects/snapshot.go) -/

/-- A `Branch`: one named reference of a snapshot.  `TargetType` is a string
tag in the source (`BranchTargetType string`). -/
structure Branch where
  Name : List Nat
  TargetType : List Nat
  Target : List Nat
deriving DecidableEq

/-- Go `computeTargetIdentifier`: the digest bytes for hash-valued targets, the
raw name bytes for an alias, and empty for dangling or unknown tags. -/
def computeTargetIdentifier (branch : Branch) : List Nat :=
  if branch.TargetType = str "content" ∨ branch.TargetType = str "directory" ∨
      branch.TargetType = str "revision" ∨ branch.TargetType = str "release" ∨
      branch.TargetType = str "snapshot" then
    hexDecodePartial branch.Target
  else if branch.TargetType = str "alias" then branch.Target
  else []

/-- Go `serializeBranch`: `"<target_type> <name>\0<target_length>:<target_identifier>"`. -/
def serializeBranch (branch : Branch) : List Nat :=
  branch.TargetType ++ 32 :: branch.Name ++
    0 :: (decDigits (computeTargetIdentifier branch).length ++ 58 :: computeTargetIdentifier branch)

/-- The ordering used by `sort.Slice` in `serializeBranches`, whose `less`
comparator is `Name i < Name j`. -/
def branchLe (a b : Branch) : Prop := bytesLt b.Name a.Name = false

instance : DecidableRel branchLe :=
  fun a b => inferInstanceAs (Decidable (bytesLt b.Name a.Name = false))

/-- Go `serializeBranches`: sort the branches by name, then concatenate the
per-branch serializations. -/
def serializeBranches (branches : List Branch) : List Nat :=
  (List.insertionSort branchLe branches).foldl (fun acc b => acc ++ serializeBranch b) []

/-- Go `ComputeSnapshotHash`: `sha1("snapshot <len>\0" ++ serialized)`. -/
def ComputeSnapshotHash (branches : List Branch) : List Nat :=
  sha1Hex (str "snapshot " ++ decDigits (serializeBranches branches).length ++
    0 :: serializeBranches branches)

/-! ### Revision hashing (objects package, revision encoder) -/

/-- Go `strings.Join(pieces, sep)` for a one-byte separator. -/
def joinWith (sep : Nat) : List (List Nat) → List Nat
  | [] => []
  | [l] => l
  | l :: ls => l ++ sep :: joinWith sep ls

/-- Go `escapeNewlines`: `strings.ReplaceAll(s, "\n", "\n ")`. -/
def escapeNewlines : List Nat → List Nat
  | [] => []
  | 10 :: rest => 10 :: 32 :: escapeNewlines rest
  | c :: rest => c :: escapeNewlines rest

/-- Go `formatHeaderLine`: `key + " " + escapeNewlines(value)`. -/
def formatHeaderLine (key value : List Nat) : List Nat :=
  key ++ 32 :: escapeNewlines value

/-- The timezone substitution applied before serialization: an empty
timezone becomes `"+0000"`. -/
def tzOrDefault (tz : List Nat) : List Nat := if tz = [] then str "+0000" else tz

/-- The `RevisionMetadata` of a commit. -/
structure RevisionMetadata where
  Directory : List Nat
  Parents : List (List Nat)
  Author : List Nat
  AuthorTimestamp : Int
  AuthorTimezone : List Nat
  Committer : List Nat
  CommitterTimestamp : Int
  CommitterTimezone : List Nat
  Message : List Nat
  ExtraHeaders : List (List Nat × List Nat)
deriving DecidableEq

/-- Go `serializeRevision`: header lines joined by `\n` with a trailing `\n`,
then (for a non-empty message) one more `\n` and the raw message. -/
def serializeRevision (meta : RevisionMetadata) : List Nat :=
  let lines :=
    [str "tree " ++ meta.Directory]
    ++ meta.Parents.map (fun p => str "parent " ++ p)
    ++ [str "author " ++ escapeNewlines meta.Author ++
        32 :: intDec meta.AuthorTimestamp ++ 32 :: tzOrDefault meta.AuthorTimezone]
    ++ [str "committer " ++ escapeNewlines meta.Committer ++
        32 :: intDec meta.CommitterTimestamp ++ 32 :: tzOrDefault meta.CommitterTimezone]
    ++ meta.ExtraHeaders.map (fun h => formatHeaderLine h.1 h.2)
  let result := joinWith 10 lines ++ [10]
  if meta.Message ≠ [] then result ++ 10 :: meta.Message else result

/-- Go `ComputeRevisionHash`: `sha1("commit <len>\0" ++ serialized)`. -/
def ComputeRevisionHash (meta : RevisionMetadata) : List Nat :=
  sha1Hex (str "commit " ++ decDigits (serializeRevision meta).length ++
    0 :: serializeRevision meta)

/-! ### Release hashing (objects package, release encoder) -/

/-- A `ReleaseTarget`: what a release points at.  `Typ` embeds the source's
`Type` field, a string tag (`TargetType string`, one of `cnt/dir/rev/rel/snp`). -/
structure ReleaseTarget where
  Hash : List Nat
  Typ : List Nat
deriving DecidableEq

/-- Go `ReleaseTarget.GitType`: the Git object type name, defaulting to
`commit` for unknown tags. -/
def ReleaseTarget.GitType (t : ReleaseTarget) : List Nat :=
  if t.Typ = str "cnt" then str "blob"
  else if t.Typ = str "dir" then str "tree"
  else if t.Typ = str "rev" then str "commit"
  else if t.Typ = str "rel" then str "tag"
  else if t.Typ = str "snp" then str "snapshot"
  else str "commit"

/-- The `ReleaseMetadata` of an annotated tag. -/
structure ReleaseMetadata where
  Name : List Nat
  Target : ReleaseTarget
  Author : List Nat
  AuthorTimestamp : Int
  AuthorTimezone : List Nat
  Message : List Nat
  ExtraHeaders : List (List Nat × List Nat)
deriving DecidableEq

/-- Go `serializeRelease`: `object`/`type`/`tag` lines, a `tagger` line only
when `Author` is non-empty, extra header lines, joined by `\n` with a
trailing `\n`, then (for a non-empty message) one more `\n` and the raw
message. -/
def serializeRelease (meta : ReleaseMetadata) : List Nat :=
  let lines :=
    [str "object " ++ meta.Target.Hash,
     str "type " ++ meta.Target.GitType,
     str "tag " ++ escapeNewlines meta.Name]
  let lines :=
    if meta.Author ≠ [] then
      lines ++ [str "tagger " ++ escapeNewlines meta.Author ++
        32 :: intDec meta.AuthorTimestamp ++ 32 :: tzOrDefault meta.AuthorTimezone]
    else lines
  let lines := lines ++ meta.ExtraHeaders.map (fun h => formatHeaderLine h.1 h.2)
  let result := joinWith 10 lines ++ [10]
  if meta.Message ≠ [] then result ++ 10 :: meta.Message else result

/-- Go `ComputeReleaseHash`: `sha1("tag <len>\0" ++ serialized)`. -/
def ComputeReleaseHash (meta : ReleaseMetadata) : List Nat :=
  sha1Hex (str "tag " ++ decDigits (serializeRelease meta).length ++
    0 :: serializeRelease meta)

/-! ### The SWHID identifier (swhid package: parsing and formatting) -/

/-- Go `strings.Split` for a one-byte separator. -/
def splitOnByte (sep : Nat) : List Nat → List (List Nat)
  | [] => [[]]
  | c :: rest =>
    match splitOnByte sep rest with
    | [] => [[]]
    | h :: t => if c = sep then [] :: h :: t else (c :: h) :: t

/-- Go `strings.ReplaceAll` for a one-byte pattern. -/
def replaceByte (old : Nat) (new : List Nat) : List Nat → List Nat
  | [] => []
  | c :: rest => (if c = old then new else [c]) ++ replaceByte old new rest

/-- Go `encodeQualifierValue`: escape `%` as `%25` first, then `;` as `%3B`. -/
def encodeQualifierValue (value : List Nat) : List Nat :=
  replaceByte 59 (str "%3B") (replaceByte 37 (str "%25") value)

/-- Go `url.QueryUnescape`: `%XX` becomes the byte `XX`, `+` becomes a
space, and a `%` not followed by two hex digits is an error (`none`). -/
def queryUnescape : List Nat → Option (List Nat)
  | [] => some []
  | 37 :: a :: b :: rest =>
    match hexVal? a, hexVal? b with
    | some x, some y => (queryUnescape rest).map (fun r => (x * 16 + y) :: r)
    | _, _ => none
  | 37 :: _ => none
  | 43 :: rest => (queryUnescape rest).map (fun r => 32 :: r)
  | c :: rest => (queryUnescape rest).map (fun r => c :: r)

/-- Go `decodeQualifierValue`: query-unescape, falling back to the raw value on
a decoding error. -/
def decodeQualifierValue (value : List Nat) : List Nat :=
  (queryUnescape value).getD value

/-- Insertion into the qualifier map (`qualifiers[key] = value`): replace an
existing binding of the key in place, else append.  Go's `map[string]string`
is modelled as an association list without duplicate keys. -/
def mapInsert (m : List (List Nat × List Nat)) (k v : List Nat) :
    List (List Nat × List Nat) :=
  match m with
  | [] => [(k, v)]
  | (k', v') :: rest => if k' = k then (k, v) :: rest else (k', v') :: mapInsert rest k v

/-- Lookup in the qualifier map. -/
def mapFind (m : List (List Nat × List Nat)) (k : List Nat) : Option (List Nat) :=
  match m with
  | [] => none
  | (k', v') :: rest => if k' = k then some v' else mapFind rest k

/-- An `Identifier`: a parsed SWHID. -/
structure Identifier where
  Scheme : List Nat
  Version : Nat
  ObjectType : List Nat
  ObjectHash : List Nat
  Qualifiers : List (List Nat × List Nat)
deriving DecidableEq

/-- Go `canonicalQualifierOrder`: qualifier keys in canonical order. -/
def canonicalQualifierOrder : List (List Nat) :=
  [str "origin", str "visit", str "anchor", str "path", str "lines", str "bytes"]

/-- Go `validObjectTypes`: the closed set of object type codes. -/
def validObjectTypes : List (List Nat) :=
  [str "cnt", str "dir", str "rev", str "rel", str "snp"]

/-- One byte of the hash pattern `^[0-9a-f]{40}$`. -/
def isHexLower (c : Nat) : Bool := (48 ≤ c && c ≤ 57) || (97 ≤ c && c ≤ 102)

/-- Go `hashRegex.MatchString`: exactly 40 bytes, each in `[0-9a-f]`. -/
def hashRegexMatch (l : List Nat) : Bool := l.length == 40 && l.all isHexLower

/-- The error kinds of the swhid package (`ErrEmptySWHID` … `ErrInvalidObjectHash`). -/
inductive ParseError where
  | emptySWHID
  | invalidFormat
  | invalidScheme
  | invalidVersion
  | invalidObjectType
  | invalidObjectHash
deriving DecidableEq

deriving instance DecidableEq for Except

/-- The qualifier loop of `Parse`: skip empty segments and segments without
`=`; split each remaining segment at its first `=` and bind the key to the
decoded value. -/
def parseQualifierParts (parts : List (List Nat)) : List (List Nat × List Nat) :=
  parts.foldl
    (fun m part =>
      if part = [] then m
      else
        match part.findIdx? (· == 61) with
        | none => m
        | some i => mapInsert m (part.take i) (decodeQualifierValue (part.drop (i + 1))))
    []

/-- Go `Parse`: split off qualifier segments at `;`, split the core on `:` into
exactly four fields, validate scheme, version, object type and hash, then
parse the qualifiers. -/
def Parse (swhidString : List Nat) : Except ParseError Identifier :=
  if swhidString = [] then .error .emptySWHID
  else
    let parts := splitOnByte 59 swhidString
    let corePart := parts.headD []
    let qualifierParts := parts.tail
    let coreParts := splitOnByte 58 corePart
    if coreParts.length ≠ 4 then .error .invalidFormat
    else
      let scheme := coreParts.getD 0 []
      let versionStr := coreParts.getD 1 []
      let objectType := coreParts.getD 2 []
      let objectHash := coreParts.getD 3 []
      if scheme ≠ str "swh" then .error .invalidScheme
      else if versionStr ≠ str "1" then .error .invalidVersion
      else if objectType ∉ validObjectTypes then .error .invalidObjectType
      else if hashRegexMatch objectHash = false then .error .invalidObjectHash
      else .ok ⟨str "swh", 1, objectType, objectHash, parseQualifierParts qualifierParts⟩

/-- Go `CoreSWHID`: `"<scheme>:<version>:<type>:<hash>"`. -/
def CoreSWHID (id : Identifier) : List Nat :=
  id.Scheme ++ 58 :: decDigits id.Version ++ 58 :: id.ObjectType ++ 58 :: id.ObjectHash

/-- Go `formatQualifiers`: canonical-order keys first, then the remaining keys
in map order (Go ranges the map in unspecified order; the association-list
order stands in for it), joined by `;`. -/
def formatQualifiers (quals : List (List Nat × List Nat)) : List Nat :=
  joinWith 59
    (canonicalQualifierOrder.filterMap
      (fun key => (mapFind quals key).map (fun value => key ++ 61 :: encodeQualifierValue value))
    ++ quals.filterMap
      (fun kv =>
        if kv.1 ∈ canonicalQualifierOrder then none
        else some (kv.1 ++ 61 :: encodeQualifierValue kv.2)))

/-- Go `(*Identifier).String()`: the core SWHID, plus `";" + formatQualifiers`
when the qualifier map is non-empty. -/
def IdentifierString (id : Identifier) : List Nat :=
  if id.Qualifiers.length = 0 then CoreSWHID id
  else CoreSWHID id ++ 59 :: formatQualifiers id.Qualifiers

/-! ### Statement vocabulary for the claims -/

/-- Predicate `startsWithBytes p l`: `p` is a prefix of `l`. -/
def startsWithBytes : List Nat → List Nat → Bool
  | [], _ => true
  | _ :: _, [] => false
  | p :: ps, c :: cs => p == c && startsWithBytes ps cs

/-- The header lines of a serialized release, in order: `object`, `type`,
`tag`, a `tagger` line only for a non-empty author, then the extra header
lines. -/
def releaseHeaderLines (meta : ReleaseMetadata) : List (List Nat) :=
  ([str "object " ++ meta.Target.Hash,
    str "type " ++ meta.Target.GitType,
    str "tag " ++ escapeNewlines meta.Name]
  ++ if meta.Author ≠ [] then
      [str "tagger " ++ escapeNewlines meta.Author ++
        32 :: intDec meta.AuthorTimestamp ++ 32 :: tzOrDefault meta.AuthorTimezone]
    else [])
  ++ meta.ExtraHeaders.map (fun h => formatHeaderLine h.1 h.2)

/-- The qualifier suffix of a rendered identifier: one `;key=value` segment
per pair. -/
def qualifierSegments : List (List Nat × List Nat) → List Nat
  | [] => []
  | (k, v) :: rest => 59 :: (k ++ 61 :: v) ++ qualifierSegments rest

/-- A qualifier value that uses only the escaped character set produced by
`encodeQualifierValue`: every `%` begins an `%25` or `%3B` escape, and no
raw `;` or `+` occurs. -/
def escapedForm : List Nat → Bool
  | [] => true
  | 37 :: 50 :: 53 :: rest => escapedForm rest
  | 37 :: 51 :: 66 :: rest => escapedForm rest
  | 37 :: _ => false
  | c :: rest => (c != 59) && (c != 43) && escapedForm rest

/-- Predicate `isSubseqOf sub sup`: `sub` is a (not necessarily contiguous)
subsequence of `sup`. -/
def isSubseqOf : List (List Nat) → List (List Nat) → Bool
  | [], _ => true
  | _ :: _, [] => false
  | a :: as, b :: bs => if a = b then isSubseqOf as bs else isSubseqOf (a :: as) bs

/-- Key and raw value of one qualifier segment, mirroring the guards of the
qualifier loop of `Parse`: `none` for an empty segment or one without `=`. -/
def segKeyVal (seg : List Nat) : Option (List Nat × List Nat) :=
  if seg = [] then none
  else
    match seg.findIdx? (· == 61) with
    | none => none
    | some i => some (seg.take i, seg.drop (i + 1))

/-- The four colon-separated fields of the first semicolon-delimited
segment, as computed inside `Parse`. -/
def coreFields (s : List Nat) : List (List Nat) :=
  splitOnByte 58 ((splitOnByte 59 s).headD [])

/-- The decoded value of the last parseable `key=value` segment whose key is
`k`, in left-to-right order. -/
def lastQualifierBinding (k : List Nat) (segs : List (List Nat)) : Option (List Nat) :=
  (((segs.filterMap segKeyVal).filter (fun kv => kv.1 == k)).getLast?).map
    (fun kv => decodeQualifierValue kv.2)

set_option maxRecDepth 1000000 in
/-- Claim C4: the single-entry directory holding the file `hello.txt` whose
target is the content digest of `"hello\n"` hashes to the known tree digest
`aaa96ced2d9a1c8e72c56b253a0e2fe78393feb7`. -/
theorem c4_hello_directory_digest :
    ComputeDirectoryHash
      [⟨str "hello.txt", .file, str "ce013625030ba8dba906f756967f9e9ca394464a", []⟩] =
    str "aaa96ced2d9a1c8e72c56b253a0e2fe78393feb7" := by decide

set_option maxRecDepth 1000000 in
/-- Claim C5: the empty content, directory, and snapshot digests equal the
fixed well-known values. -/
theorem c5_empty_digests :
    ComputeContentHash [] = str "e69de29bb2d1d6434b8b29ae775ad8c2e48c5391"
    ∧ ComputeDirectoryHash [] = str "4b825dc642cb6eb9a060e54bf8d69288fbee4904"
    ∧ ComputeSnapshotHash [] = str "1a8893e6a86f444e8be8e7bda6cb34fb1735a00e" := by
  refine ⟨by decide, by decide, by decide⟩

/-! ### Order properties of `bytesLt` -/

theorem bytesLt_asymm : ∀ a b : List Nat, bytesLt a b = true → bytesLt b a = false
  | [], [], h => by simp [bytesLt] at h
  | [], _ :: _, _ => by simp [bytesLt]
  | _ :: _, [], h => by simp [bytesLt] at h
  | x :: xs, y :: ys, h => by
    simp only [bytesLt] at h ⊢
    by_cases hxy : x < y
    · have : ¬ y < x := by omega
      simp [hxy, this]
    · by_cases hyx : y < x
      · simp [hxy, hyx] at h
      · simp only [hxy, hyx, if_false] at h ⊢
        exact bytesLt_asymm xs ys h

theorem bytesLt_connex : ∀ a b : List Nat, bytesLt a b = false → bytesLt b a = false → a = b
  | [], [], _, _ => rfl
  | [], _ :: _, h, _ => by simp [bytesLt] at h
  | _ :: _, [], _, h => by simp [bytesLt] at h
  | x :: xs, y :: ys, h₁, h₂ => by
    simp only [bytesLt] at h₁ h₂
    by_cases hxy : x < y
    · simp [hxy] at h₁
    · by_cases hyx : y < x
      · simp [hyx, hxy] at h₂
      · have hxy' : x = y := by omega
        simp only [hxy, hyx, if_false] at h₁ h₂
        rw [hxy', bytesLt_connex xs ys h₁ h₂]

theorem bytesLt_trans : ∀ a b c : List Nat,
    bytesLt a b = true → bytesLt b c = true → bytesLt a c = true
  | [], _, [], _, h₂ => by cases ‹List Nat› <;> simp [bytesLt] at h₂
  | [], _, _ :: _, _, _ => by simp [bytesLt]
  | _ :: _, [], _, h₁, _ => by simp [bytesLt] at h₁
  | _ :: _, _ :: _, [], _, h₂ => by simp [bytesLt] at h₂
  | x :: xs, y :: ys, z :: zs, h₁, h₂ => by
    simp only [bytesLt] at h₁ h₂ ⊢
    by_cases hxy : x < y
    · by_cases hyz : y < z
      · simp [show x < z by omega]
      · by_cases hzy : z < y
        · simp [hxy, hyz, hzy] at h₂
        · have : y = z := by omega
          subst this
          simp [hxy]
    · by_cases hyx : y < x
      · simp [hxy, hyx] at h₁
      · have hxy' : x = y := by omega
        subst hxy'
        simp only [lt_irrefl, if_false] at h₁
        by_cases hyz : x < z
        · simp [hyz]
        · by_cases hzy : z < x
          · simp [hyz, hzy] at h₂
          · simp only [hyz, hzy, if_false] at h₂ ⊢
            exact bytesLt_trans xs ys zs h₁ h₂

/-- A stable comparison sort run with the comparator `key i < key j` orders
any two permutations of a list identically, provided the sort keys of the
list's elements are pairwise distinct. -/
theorem insertionSort_eq_of_perm_of_distinct_keys {α : Type} (key : α → List Nat)
    {r : α → α → Prop} [DecidableRel r]
    (hr : ∀ a b, r a b ↔ bytesLt (key b) (key a) = false)
    {l l' : List α} (hp : l.Perm l')
    (hd : l.Pairwise (fun a b => key a ≠ key b)) :
    List.insertionSort r l = List.insertionSort r l' := by
  haveI htot : IsTotal α r := by
    constructor
    intro a b
    rcases h : bytesLt (key b) (key a) with hf | ht
    · exact Or.inl ((hr a b).mpr h)
    · exact Or.inr ((hr b a).mpr (bytesLt_asymm _ _ h))
  haveI htr : IsTrans α r := by
    constructor
    intro a b c hab hbc
    rw [hr] at hab hbc ⊢
    cases h : bytesLt (key c) (key a) with
    | false => rfl
    | true =>
      exfalso
      cases h2 : bytesLt (key b) (key c) with
      | false =>
        rw [bytesLt_connex _ _ h2 hbc] at hab
        rw [h] at hab
        simp at hab
      | true =>
        have h3 := bytesLt_trans _ _ _ h2 h
        rw [h3] at hab
        simp at hab
  have hanti : ∀ a b, a ∈ List.insertionSort r l → b ∈ List.insertionSort r l' →
      r a b → r b a → a = b := by
    intro a b ha hb hab hba
    have ha' : a ∈ l := (List.perm_insertionSort r l).subset ha
    have hb' : b ∈ l := hp.symm.subset ((List.perm_insertionSort r l').subset hb)
    rw [hr] at hab hba
    have hkey : key a = key b := bytesLt_connex _ _ hba hab
    by_contra hne
    have hsym : Symmetric (fun a b : α => key a ≠ key b) := by
      intro x y h e
      exact h e.symm
    exact (hd.forall hsym ha' hb' hne) hkey
  exact List.Perm.eq_of_sorted hanti (List.sorted_insertionSort r l)
    (List.sorted_insertionSort r l')
    ((List.perm_insertionSort r l).trans (hp.trans (List.perm_insertionSort r l').symm))

/-- Claim C2 (amended): for every list of directory entries whose sort keys
are pairwise distinct, every permutation of the list yields the same
`ComputeDirectoryHash` digest; likewise for every list of branches with
pairwise-distinct names and `ComputeSnapshotHash`. -/
theorem c2_perm_invariant_distinct_keys :
    (∀ (l l' : List DirectoryEntry), l.Perm l' →
      l.Pairwise (fun a b => a.SortKey ≠ b.SortKey) →
      ComputeDirectoryHash l = ComputeDirectoryHash l')
    ∧ (∀ (l l' : List Branch), l.Perm l' →
      l.Pairwise (fun a b => a.Name ≠ b.Name) →
      ComputeSnapshotHash l = ComputeSnapshotHash l') := by
  constructor
  · intro l l' hp hd
    have hs : List.insertionSort entryLe l = List.insertionSort entryLe l' :=
      insertionSort_eq_of_perm_of_distinct_keys DirectoryEntry.SortKey
        (fun _ _ => Iff.rfl) hp hd
    unfold ComputeDirectoryHash serializeEntries
    rw [hs]
  · intro l l' hp hd
    have hs : List.insertionSort branchLe l = List.insertionSort branchLe l' :=
      insertionSort_eq_of_perm_of_distinct_keys Branch.Name
        (fun _ _ => Iff.rfl) hp hd
    unfold ComputeSnapshotHash serializeBranches
    rw [hs]

set_option maxRecDepth 1000000 in
/-- Claim C2 is false as stated: two same-named entries (a tie of the sort
comparator) with different targets give permutation-dependent digests, and
likewise two same-named branches. -/
theorem c2_counterexample :
    ([⟨str "a", .file, str "e69de29bb2d1d6434b8b29ae775ad8c2e48c5391", []⟩,
      ⟨str "a", .file, str "4b825dc642cb6eb9a060e54bf8d69288fbee4904", []⟩] : List DirectoryEntry).Perm
      [⟨str "a", .file, str "4b825dc642cb6eb9a060e54bf8d69288fbee4904", []⟩,
       ⟨str "a", .file, str "e69de29bb2d1d6434b8b29ae775ad8c2e48c5391", []⟩]
    ∧ ComputeDirectoryHash
        [⟨str "a", .file, str "e69de29bb2d1d6434b8b29ae775ad8c2e48c5391", []⟩,
         ⟨str "a", .file, str "4b825dc642cb6eb9a060e54bf8d69288fbee4904", []⟩] ≠
      ComputeDirectoryHash
        [⟨str "a", .file, str "4b825dc642cb6eb9a060e54bf8d69288fbee4904", []⟩,
         ⟨str "a", .file, str "e69de29bb2d1d6434b8b29ae775ad8c2e48c5391", []⟩]
    ∧ ([⟨str "x", str "revision", str "e69de29bb2d1d6434b8b29ae775ad8c2e48c5391"⟩,
        ⟨str "x", str "revision", str "4b825dc642cb6eb9a060e54bf8d69288fbee4904"⟩] : List Branch).Perm
       [⟨str "x", str "revision", str "4b825dc642cb6eb9a060e54bf8d69288fbee4904"⟩,
        ⟨str "x", str "revision", str "e69de29bb2d1d6434b8b29ae775ad8c2e48c5391"⟩]
    ∧ ComputeSnapshotHash
        [⟨str "x", str "revision", str "e69de29bb2d1d6434b8b29ae775ad8c2e48c5391"⟩,
         ⟨str "x", str "revision", str "4b825dc642cb6eb9a060e54bf8d69288fbee4904"⟩] ≠
      ComputeSnapshotHash
        [⟨str "x", str "revision", str "4b825dc642cb6eb9a060e54bf8d69288fbee4904"⟩,
         ⟨str "x", str "revision", str "e69de29bb2d1d6434b8b29ae775ad8c2e48c5391"⟩] := by
  refine ⟨by decide, by decide, by decide, by decide⟩

set_option maxRecDepth 1000000 in
/-- Witness for C2: concrete distinct-name entry and branch lists whose two
orders hash identically. -/
theorem c2_perm_invariant_distinct_keys_witness :
    ComputeDirectoryHash
        [⟨str "a", .file, str "e69de29bb2d1d6434b8b29ae775ad8c2e48c5391", []⟩,
         ⟨str "z", .file, str "4b825dc642cb6eb9a060e54bf8d69288fbee4904", []⟩] =
      ComputeDirectoryHash
        [⟨str "z", .file, str "4b825dc642cb6eb9a060e54bf8d69288fbee4904", []⟩,
         ⟨str "a", .file, str "e69de29bb2d1d6434b8b29ae775ad8c2e48c5391", []⟩]
    ∧ ComputeSnapshotHash
        [⟨str "refs/heads/dev", str "revision", str "4b825dc642cb6eb9a060e54bf8d69288fbee4904"⟩,
         ⟨str "refs/heads/main", str "revision", str "4b825dc642cb6eb9a060e54bf8d69288fbee4904"⟩] =
      ComputeSnapshotHash
        [⟨str "refs/heads/main", str "revision", str "4b825dc642cb6eb9a060e54bf8d69288fbee4904"⟩,
         ⟨str "refs/heads/dev", str "revision", str "4b825dc642cb6eb9a060e54bf8d69288fbee4904"⟩] :=
  ⟨c2_perm_invariant_distinct_keys.1 _ _ (by decide) (by decide),
   c2_perm_invariant_distinct_keys.2 _ _ (by decide) (by decide)⟩


/-! ### The qualifier codec (claims C3 and C1) -/

theorem replaceByte_append (o : Nat) (n a b : List Nat) :
    replaceByte o n (a ++ b) = replaceByte o n a ++ replaceByte o n b := by
  induction a with
  | nil => rfl
  | cons c cs ih => simp [replaceByte, ih]

theorem encodeQualifierValue_cons (c : Nat) (rest : List Nat) :
    encodeQualifierValue (c :: rest) =
      (if c = 37 then [37, 50, 53] else if c = 59 then [37, 51, 66] else [c]) ++
        encodeQualifierValue rest := by
  have h25 : str "%25" = [37, 50, 53] := by decide
  have h3B : str "%3B" = [37, 51, 66] := by decide
  unfold encodeQualifierValue
  by_cases h37 : c = 37
  · subst h37
    simp [replaceByte, replaceByte_append, h25, h3B]
  · by_cases h59 : c = 59
    · subst h59
      simp [replaceByte, replaceByte_append, h25, h3B]
    · simp [replaceByte, replaceByte_append, h37, h59]

theorem queryUnescape_cons_other (c : Nat) (rest : List Nat) (h37 : c ≠ 37) (h43 : c ≠ 43) :
    queryUnescape (c :: rest) = (queryUnescape rest).map (fun r => c :: r) := by
  rw [queryUnescape.eq_def]
  split
  · simp_all
  · simp_all
  · simp_all
  · simp_all
  · rename_i heq
    injection heq with h1 h2
    subst h1
    subst h2
    rfl

theorem queryUnescape_encode (v : List Nat) (h : 43 ∉ v) :
    queryUnescape (encodeQualifierValue v) = some v := by
  induction v with
  | nil => rfl
  | cons c rest ih =>
    have hrest : 43 ∉ rest := fun hm => h (List.mem_cons_of_mem _ hm)
    have hc : c ≠ 43 := fun he => h (he ▸ List.mem_cons_self c rest)
    rw [encodeQualifierValue_cons]
    by_cases h37 : c = 37
    · subst h37
      simp only [if_pos rfl, List.cons_append, List.nil_append]
      show queryUnescape (37 :: 50 :: 53 :: encodeQualifierValue rest) = _
      simp [queryUnescape, hexVal?, ih hrest]
    · by_cases h59 : c = 59
      · subst h59
        simp only [h37, if_false, if_pos rfl, List.cons_append, List.nil_append]
        show queryUnescape (37 :: 51 :: 66 :: encodeQualifierValue rest) = _
        simp [queryUnescape, hexVal?, ih hrest]
      · simp only [h37, h59, if_false, List.singleton_append]
        rw [queryUnescape_cons_other c _ h37 hc, ih hrest]
        rfl

/-- Claim C3 (amended): decoding inverts encoding for every qualifier value
that contains no `+` byte (the decoder is Go's query-unescaping, which also
maps a raw `+` to a space). -/
theorem c3_decode_encode_roundtrip (v : List Nat) (h : 43 ∉ v) :
    decodeQualifierValue (encodeQualifierValue v) = v := by
  unfold decodeQualifierValue
  rw [queryUnescape_encode v h]
  rfl

/-- Witness for C3 at a value exercising both escapes. -/
theorem c3_decode_encode_roundtrip_witness :
    decodeQualifierValue (encodeQualifierValue (str "a%b;c")) = str "a%b;c" :=
  c3_decode_encode_roundtrip (str "a%b;c") (by decide)

/-- Claim C3 is false as stated: decoding the encoding of `"+"` yields
`" "`, because the parse-side decoder is generic query-unescaping. -/
theorem c3_counterexample :
    decodeQualifierValue (encodeQualifierValue (str "+")) = str " "
    ∧ str " " ≠ str "+" := by
  refine ⟨by decide, by decide⟩

/-- Claim C7: leaving both timezones empty and setting both to `"+0000"`
produce the same revision digest — the substitution happens before
serialization. -/
theorem c7_timezone_default (m : RevisionMetadata) :
    ComputeRevisionHash { m with AuthorTimezone := [], CommitterTimezone := [] } =
    ComputeRevisionHash { m with AuthorTimezone := str "+0000", CommitterTimezone := str "+0000" } := by
  have h1 : tzOrDefault [] = str "+0000" := by decide
  have h2 : tzOrDefault (str "+0000") = str "+0000" := by decide
  have hser :
      serializeRevision { m with AuthorTimezone := [], CommitterTimezone := [] } =
      serializeRevision { m with AuthorTimezone := str "+0000", CommitterTimezone := str "+0000" } := by
    simp [serializeRevision, h1, h2]
  unfold ComputeRevisionHash
  rw [hser]

set_option maxRecDepth 1000000 in
/-- Claim C9, evaluated on the code at the failing input: the directory
encoder has no error path at all; an entry whose target is not valid 40-hex
is serialized with zero target bytes and a digest is still returned. -/
theorem c9_invalid_target_silently_truncated :
    serializeEntries [⟨str "a", .file, str "zz", []⟩] = str "100644 a" ++ [0]
    ∧ ComputeDirectoryHash [⟨str "a", .file, str "zz", []⟩] =
        str "17feed40d115468feab599cd9830dec0ebf2d76a" := by
  refine ⟨by decide, by decide⟩

/-! ### Splitting lemmas (claims C6, C1, C8, C10) -/

theorem splitOnByte_ne_nil (sep : Nat) (l : List Nat) : splitOnByte sep l ≠ [] := by
  cases l with
  | nil => simp [splitOnByte]
  | cons c rest =>
    cases h : splitOnByte sep rest with
    | nil => simp [splitOnByte, h]
    | cons a t => by_cases hc : c = sep <;> simp [splitOnByte, h, hc]

theorem splitOnByte_cons_sep (sep : Nat) (x : List Nat) :
    splitOnByte sep (sep :: x) = [] :: splitOnByte sep x := by
  simp only [splitOnByte]
  cases h : splitOnByte sep x with
  | nil => exact absurd h (splitOnByte_ne_nil sep x)
  | cons a t => simp

theorem splitOnByte_cons_ne (sep c : Nat) (x : List Nat) (hc : c ≠ sep) :
    splitOnByte sep (c :: x) =
      (c :: (splitOnByte sep x).headD []) :: (splitOnByte sep x).tail := by
  simp only [splitOnByte]
  cases h : splitOnByte sep x with
  | nil => exact absurd h (splitOnByte_ne_nil sep x)
  | cons a t => simp [hc]

theorem splitOnByte_no_sep (sep : Nat) (x : List Nat) (h : sep ∉ x) :
    splitOnByte sep x = [x] := by
  induction x with
  | nil => rfl
  | cons c rest ih =>
    have hc : c ≠ sep := fun he => h (he ▸ List.mem_cons_self c rest)
    have hrest : sep ∉ rest := fun hm => h (List.mem_cons_of_mem _ hm)
    rw [splitOnByte_cons_ne sep c rest hc, ih hrest]
    rfl

theorem splitOnByte_append_sep (sep : Nat) (a b : List Nat) :
    splitOnByte sep (a ++ sep :: b) = splitOnByte sep a ++ splitOnByte sep b := by
  induction a with
  | nil =>
    rw [List.nil_append, splitOnByte_cons_sep]
    rfl
  | cons c rest ih =>
    by_cases hc : c = sep
    · subst hc
      rw [List.cons_append, splitOnByte_cons_sep, splitOnByte_cons_sep, ih]
      rfl
    · rw [List.cons_append, splitOnByte_cons_ne sep c _ hc, splitOnByte_cons_ne sep c rest hc, ih]
      cases h : splitOnByte sep rest with
      | nil => exact absurd h (splitOnByte_ne_nil sep rest)
      | cons x t => simp

theorem splitOnByte_append_no_sep (sep : Nat) (a x : List Nat) (h : sep ∉ a) :
    splitOnByte sep (a ++ x) =
      (a ++ (splitOnByte sep x).headD []) :: (splitOnByte sep x).tail := by
  induction a with
  | nil =>
    cases hx : splitOnByte sep x with
    | nil => exact absurd hx (splitOnByte_ne_nil sep x)
    | cons h t => simp [hx]
  | cons c rest ih =>
    have hc : c ≠ sep := fun he => h (he ▸ List.mem_cons_self c rest)
    have hrest : sep ∉ rest := fun hm => h (List.mem_cons_of_mem _ hm)
    rw [List.cons_append, splitOnByte_cons_ne sep c _ hc, ih hrest]
    simp

theorem splitOnByte_joinWith (sep : Nat) (lines : List (List Nat)) (h : lines ≠ []) :
    splitOnByte sep (joinWith sep lines) = (lines.map (splitOnByte sep)).flatten := by
  induction lines with
  | nil => exact absurd rfl h
  | cons l ls ih =>
    cases ls with
    | nil => simp [joinWith]
    | cons l' ls' =>
      have hne : l' :: ls' ≠ [] := by simp
      show splitOnByte sep (l ++ sep :: joinWith sep (l' :: ls')) = _
      rw [splitOnByte_append_sep, ih hne]
      simp

/-! ### Release serialization shape (claim C6) -/

theorem escapeNewlines_cons (c : Nat) (rest : List Nat) :
    escapeNewlines (c :: rest) =
      (if c = 10 then [10, 32] else [c]) ++ escapeNewlines rest := by
  by_cases hc : c = 10
  · subst hc
    simp [escapeNewlines]
  · rw [escapeNewlines.eq_def]
    split <;> simp_all

theorem splitOnByte_escapeNewlines (v : List Nat) :
    ∀ seg ∈ (splitOnByte 10 (escapeNewlines v)).tail, ∃ s, seg = 32 :: s := by
  induction v with
  | nil =>
    intro seg hseg
    simp [escapeNewlines, splitOnByte] at hseg
  | cons c rest ih =>
    intro seg hseg
    rw [escapeNewlines_cons] at hseg
    by_cases hc : c = 10
    · subst hc
      rw [if_pos rfl] at hseg
      simp only [List.cons_append, List.nil_append] at hseg
      rw [splitOnByte_cons_sep, splitOnByte_cons_ne 10 32 _ (by omega)] at hseg
      simp only [List.tail_cons] at hseg
      rcases List.mem_cons.mp hseg with h1 | h2
      · exact ⟨(splitOnByte 10 (escapeNewlines rest)).headD [], h1⟩
      · exact ih seg h2
    · rw [if_neg hc, List.singleton_append, splitOnByte_cons_ne 10 c _ hc] at hseg
      simp only [List.tail_cons] at hseg
      exact ih seg hseg

theorem startsWithBytes_of_append_space (p : List Nat) (hp : 32 ∉ p) :
    ∀ k r : List Nat, startsWithBytes p (k ++ 32 :: r) = true → startsWithBytes p k = true := by
  induction p with
  | nil => intro k r _; rfl
  | cons x ps ih =>
    intro k r h
    cases k with
    | nil =>
      simp only [List.nil_append, startsWithBytes, Bool.and_eq_true, beq_iff_eq] at h
      obtain ⟨h1, -⟩ := h
      subst h1
      exact absurd (List.mem_cons_self _ _) hp
    | cons y ks =>
      simp only [List.cons_append, startsWithBytes, Bool.and_eq_true] at h ⊢
      exact ⟨h.1, ih (fun hm => hp (List.mem_cons_of_mem _ hm)) ks r h.2⟩

theorem tagger_not_space (s : List Nat) :
    startsWithBytes (str "tagger") (32 :: s) = false := by
  have h : str "tagger" = [116, 97, 103, 103, 101, 114] := by decide
  rw [h]
  simp [startsWithBytes]

theorem tagger_not_nil : startsWithBytes (str "tagger") [] = false := by decide

theorem tagger_not_object_line (x : List Nat) :
    startsWithBytes (str "tagger") (str "object " ++ x) = false := by
  have h : str "tagger" = [116, 97, 103, 103, 101, 114] := by decide
  have h2 : str "object " = [111, 98, 106, 101, 99, 116, 32] := by decide
  rw [h, h2]
  simp [startsWithBytes]

theorem tagger_not_type_line (x : List Nat) :
    startsWithBytes (str "tagger") (str "type " ++ x) = false := by
  have h : str "tagger" = [116, 97, 103, 103, 101, 114] := by decide
  have h2 : str "type " = [116, 121, 112, 101, 32] := by decide
  rw [h, h2]
  simp [startsWithBytes]

theorem tagger_not_tag_line (x : List Nat) :
    startsWithBytes (str "tagger") (str "tag " ++ x) = false := by
  have h : str "tagger" = [116, 97, 103, 103, 101, 114] := by decide
  have h2 : str "tag " = [116, 97, 103, 32] := by decide
  rw [h, h2]
  simp [startsWithBytes]

theorem gitType_no_newline (t : ReleaseTarget) : 10 ∉ t.GitType := by
  unfold ReleaseTarget.GitType
  split_ifs <;> decide

theorem formatHeaderLine_no_tagger (k v : List Nat)
    (hk : startsWithBytes (str "tagger") k = false) (h10 : 10 ∉ k) :
    ∀ seg ∈ splitOnByte 10 (formatHeaderLine k v),
      startsWithBytes (str "tagger") seg = false := by
  intro seg hseg
  unfold formatHeaderLine at hseg
  rw [splitOnByte_append_no_sep 10 k _ h10,
    splitOnByte_cons_ne 10 32 _ (by omega)] at hseg
  simp only [List.headD_cons, List.tail_cons] at hseg
  rcases List.mem_cons.mp hseg with h1 | h2
  · subst h1
    rcases hres : startsWithBytes (str "tagger")
        (k ++ 32 :: (splitOnByte 10 (escapeNewlines v)).headD []) with hf | ht
    · rfl
    · exact absurd (startsWithBytes_of_append_space (str "tagger") (by decide) k _ hres)
        (by rw [hk]; exact Bool.false_ne_true)
  · obtain ⟨s, hs⟩ := splitOnByte_escapeNewlines v seg h2
    rw [hs]
    exact tagger_not_space s

theorem tag_line_no_tagger (name : List Nat) :
    ∀ seg ∈ splitOnByte 10 (str "tag " ++ escapeNewlines name),
      startsWithBytes (str "tagger") seg = false := by
  intro seg hseg
  rw [splitOnByte_append_no_sep 10 _ _ (by decide)] at hseg
  rcases List.mem_cons.mp hseg with h1 | h2
  · subst h1
    exact tagger_not_tag_line _
  · obtain ⟨s, hs⟩ := splitOnByte_escapeNewlines name seg h2
    rw [hs]
    exact tagger_not_space s

theorem serializeRelease_eq (meta : ReleaseMetadata) :
    serializeRelease meta =
      if meta.Message ≠ [] then
        joinWith 10 (releaseHeaderLines meta) ++ [10] ++ 10 :: meta.Message
      else joinWith 10 (releaseHeaderLines meta) ++ [10] := by
  unfold serializeRelease releaseHeaderLines
  by_cases hA : meta.Author ≠ [] <;> by_cases hM : meta.Message ≠ [] <;>
    simp [hA, hM]

/-- Claim C6 (amended): with an empty author the serialized release
contains no line beginning with `tagger` — provided the target hash
contains no newline, no extra-header key begins with `tagger` or contains
a newline, and no message line begins with `tagger`, since the target
hash, the extra-header keys and the message all flow into the
serialization verbatim and unescaped — and with an empty message the
serialization is exactly the header lines joined by newlines plus the
trailing newline, with no blank-line-plus-message suffix. -/
theorem c6_tagger_and_message_omission :
    (∀ meta : ReleaseMetadata, meta.Author = [] →
      10 ∉ meta.Target.Hash →
      (∀ kv ∈ meta.ExtraHeaders,
        startsWithBytes (str "tagger") kv.1 = false ∧ 10 ∉ kv.1) →
      (∀ seg ∈ splitOnByte 10 meta.Message,
        startsWithBytes (str "tagger") seg = false) →
      ∀ line ∈ splitOnByte 10 (serializeRelease meta),
        startsWithBytes (str "tagger") line = false)
    ∧ (∀ meta : ReleaseMetadata, meta.Message = [] →
      serializeRelease meta = joinWith 10 (releaseHeaderLines meta) ++ [10]) := by
  constructor
  · intro meta hA hH hK hM line hline
    rw [serializeRelease_eq] at hline
    have hAne : ¬ meta.Author ≠ [] := fun h => h hA
    have hlines : releaseHeaderLines meta =
        [str "object " ++ meta.Target.Hash,
         str "type " ++ meta.Target.GitType,
         str "tag " ++ escapeNewlines meta.Name]
        ++ meta.ExtraHeaders.map (fun h => formatHeaderLine h.1 h.2) := by
      unfold releaseHeaderLines
      rw [if_neg hAne]
      simp
    have hLne : releaseHeaderLines meta ≠ [] := by
      rw [hlines]
      simp
    have hjoin : ∀ l ∈ splitOnByte 10 (joinWith 10 (releaseHeaderLines meta)),
        startsWithBytes (str "tagger") l = false := by
      intro l hl
      rw [splitOnByte_joinWith 10 _ hLne] at hl
      rw [List.mem_flatten] at hl
      obtain ⟨parts, hparts, hlparts⟩ := hl
      rw [List.mem_map] at hparts
      obtain ⟨hd, hhd, rfl⟩ := hparts
      rw [hlines] at hhd
      rcases List.mem_append.mp hhd with hfixed | hextra
      · simp only [List.mem_cons, List.not_mem_nil, or_false] at hfixed
        rcases hfixed with h1 | h2 | h3
        · subst h1
          have hno : (10 : Nat) ∉ str "object " ++ meta.Target.Hash := by
            intro hmem
            rcases List.mem_append.mp hmem with hx | hx
            · exact absurd hx (by decide)
            · exact hH hx
          rw [splitOnByte_no_sep 10 _ hno] at hlparts
          rw [List.mem_singleton.mp hlparts]
          exact tagger_not_object_line _
        · subst h2
          have hno : (10 : Nat) ∉ str "type " ++ meta.Target.GitType := by
            intro hmem
            rcases List.mem_append.mp hmem with hx | hx
            · exact absurd hx (by decide)
            · exact gitType_no_newline _ hx
          rw [splitOnByte_no_sep 10 _ hno] at hlparts
          rw [List.mem_singleton.mp hlparts]
          exact tagger_not_type_line _
        · subst h3
          exact tag_line_no_tagger meta.Name l hlparts
      · rw [List.mem_map] at hextra
        obtain ⟨kv, hkv, rfl⟩ := hextra
        exact formatHeaderLine_no_tagger kv.1 kv.2 (hK kv hkv).1 (hK kv hkv).2 l hlparts
    by_cases hMsg : meta.Message ≠ []
    · rw [if_pos hMsg] at hline
      have hassoc : joinWith 10 (releaseHeaderLines meta) ++ [10] ++ 10 :: meta.Message =
          joinWith 10 (releaseHeaderLines meta) ++ 10 :: (10 :: meta.Message) := by
        simp
      rw [hassoc, splitOnByte_append_sep, splitOnByte_cons_sep] at hline
      rcases List.mem_append.mp hline with hj | hrest
      · exact hjoin line hj
      · rcases List.mem_cons.mp hrest with rfl | hmsg
        · exact tagger_not_nil
        · exact hM line hmsg
    · rw [if_neg hMsg] at hline
      have hassoc : joinWith 10 (releaseHeaderLines meta) ++ [10] =
          joinWith 10 (releaseHeaderLines meta) ++ 10 :: ([] : List Nat) := rfl
      rw [hassoc, splitOnByte_append_sep] at hline
      rcases List.mem_append.mp hline with hj | hrest
      · exact hjoin line hj
      · rcases List.mem_cons.mp hrest with rfl | hmsg
        · exact tagger_not_nil
        · simp [splitOnByte] at hmsg
  · intro meta hM
    rw [serializeRelease_eq, if_neg (fun h => h hM)]

/-- Claim C6 is false as universally stated: with an empty author, an extra
header whose key is `tagger`, a message line starting with `tagger`, or a
target hash containing `"\ntagger …"`, still puts a `tagger`-prefixed
line into the serialization. -/
theorem c6_counterexample :
    ((splitOnByte 10 (serializeRelease
        ⟨str "v1", ⟨str "e69de29bb2d1d6434b8b29ae775ad8c2e48c5391", str "rev"⟩, [], 0, [],
         [], [(str "tagger", str "evil")]⟩)).any
      (fun line => startsWithBytes (str "tagger") line) = true)
    ∧ ((splitOnByte 10 (serializeRelease
        ⟨str "v1", ⟨str "e69de29bb2d1d6434b8b29ae775ad8c2e48c5391", str "rev"⟩, [], 0, [],
         str "tagger strikes", []⟩)).any
      (fun line => startsWithBytes (str "tagger") line) = true)
    ∧ ((splitOnByte 10 (serializeRelease
        ⟨str "v1", ⟨str "x" ++ 10 :: str "tagger evil", str "rev"⟩, [], 0, [],
         [], []⟩)).any
      (fun line => startsWithBytes (str "tagger") line) = true) := by
  refine ⟨by decide, by decide, by decide⟩

/-- Witness for C6: a concrete tagless release with an innocuous extra
header and message, and a concrete empty-message release. -/
theorem c6_tagger_and_message_omission_witness :
    (∀ line ∈ splitOnByte 10 (serializeRelease
        ⟨str "v1.0", ⟨str "e69de29bb2d1d6434b8b29ae775ad8c2e48c5391", str "rev"⟩, [], 0, [],
         str "release message", [(str "gpgsig", str "SIG")]⟩),
      startsWithBytes (str "tagger") line = false)
    ∧ serializeRelease
        ⟨str "v1.0", ⟨str "e69de29bb2d1d6434b8b29ae775ad8c2e48c5391", str "rev"⟩,
         str "Alice <alice@example.com>", 100, [], [], []⟩ =
      joinWith 10 (releaseHeaderLines
        ⟨str "v1.0", ⟨str "e69de29bb2d1d6434b8b29ae775ad8c2e48c5391", str "rev"⟩,
         str "Alice <alice@example.com>", 100, [], [], []⟩) ++ [10] :=
  ⟨c6_tagger_and_message_omission.1 _ rfl (by decide) (by decide) (by decide),
   c6_tagger_and_message_omission.2 _ rfl⟩

theorem Parse_eq_of_ne_nil (s : List Nat) (h0 : s ≠ []) :
    Parse s =
      if (coreFields s).length ≠ 4 then .error .invalidFormat
      else if (coreFields s).getD 0 [] ≠ str "swh" then .error .invalidScheme
      else if (coreFields s).getD 1 [] ≠ str "1" then .error .invalidVersion
      else if (coreFields s).getD 2 [] ∉ validObjectTypes then .error .invalidObjectType
      else if hashRegexMatch ((coreFields s).getD 3 []) = false then .error .invalidObjectHash
      else .ok ⟨str "swh", 1, (coreFields s).getD 2 [], (coreFields s).getD 3 [],
        parseQualifierParts (splitOnByte 59 s).tail⟩ := by
  unfold Parse
  rw [if_neg h0]
  rfl

/-- Claim C8: `Parse` fails with `ErrEmptySWHID` exactly on the empty
string; with `ErrInvalidFormat` exactly when the first `;`-segment does not
split on `:` into four fields; otherwise each of the four validations
(scheme `swh`, version literally `"1"`, object type in the closed set, hash
matching `^[0-9a-f]{40}$`) fails with its own distinct error kind, and
`Parse` succeeds exactly when all four pass. -/
theorem c8_parse_error_taxonomy (s : List Nat) :
    (Parse s = .error .emptySWHID ↔ s = [])
    ∧ (Parse s = .error .invalidFormat ↔ s ≠ [] ∧ (coreFields s).length ≠ 4)
    ∧ (s ≠ [] → (coreFields s).length = 4 →
        ((Parse s = .error .invalidScheme ↔ (coreFields s).getD 0 [] ≠ str "swh")
        ∧ ((coreFields s).getD 0 [] = str "swh" →
            (Parse s = .error .invalidVersion ↔ (coreFields s).getD 1 [] ≠ str "1"))
        ∧ ((coreFields s).getD 0 [] = str "swh" → (coreFields s).getD 1 [] = str "1" →
            (Parse s = .error .invalidObjectType ↔
              (coreFields s).getD 2 [] ∉ validObjectTypes))
        ∧ ((coreFields s).getD 0 [] = str "swh" → (coreFields s).getD 1 [] = str "1" →
            (coreFields s).getD 2 [] ∈ validObjectTypes →
            (Parse s = .error .invalidObjectHash ↔
              hashRegexMatch ((coreFields s).getD 3 []) = false))))
    ∧ ((∃ id, Parse s = .ok id) ↔
        s ≠ [] ∧ (coreFields s).length = 4 ∧ (coreFields s).getD 0 [] = str "swh"
        ∧ (coreFields s).getD 1 [] = str "1"
        ∧ (coreFields s).getD 2 [] ∈ validObjectTypes
        ∧ hashRegexMatch ((coreFields s).getD 3 []) = true) := by
  by_cases h0 : s = []
  · subst h0
    simp [Parse, coreFields]
  · rw [Parse_eq_of_ne_nil s h0]
    generalize coreFields s = cp
    generalize parseQualifierParts (splitOnByte 59 s).tail = quals
    split_ifs with h1 h2 h3 h4 h5 <;> simp_all

/-- Witness for C8: a failing hash validation and the empty-input error at
concrete inputs, obtained through the taxonomy theorem. -/
theorem c8_parse_error_taxonomy_witness :
    Parse (str "swh:1:cnt:zz") = .error .invalidObjectHash
    ∧ Parse [] = .error .emptySWHID := by
  constructor
  · exact (((c8_parse_error_taxonomy (str "swh:1:cnt:zz")).2.2.1 (by decide) (by decide)).2.2.2
      (by decide) (by decide) (by decide)).mpr (by decide)
  · exact (c8_parse_error_taxonomy []).1.mpr rfl

/-- Success characterization of `Parse` (shared by several claims). -/
theorem Parse_ok_iff (s : List Nat) :
    (∃ id, Parse s = .ok id) ↔
      s ≠ [] ∧ (coreFields s).length = 4 ∧ (coreFields s).getD 0 [] = str "swh"
      ∧ (coreFields s).getD 1 [] = str "1"
      ∧ (coreFields s).getD 2 [] ∈ validObjectTypes
      ∧ hashRegexMatch ((coreFields s).getD 3 []) = true := by
  by_cases h0 : s = []
  · subst h0
    simp [Parse, coreFields]
  · rw [Parse_eq_of_ne_nil s h0]
    generalize coreFields s = cp
    generalize parseQualifierParts (splitOnByte 59 s).tail = quals
    split_ifs with h1 h2 h3 h4 h5 <;> simp_all

theorem headD_splitOnByte_not_mem (sep : Nat) (l : List Nat) :
    sep ∉ (splitOnByte sep l).headD [] := by
  induction l with
  | nil => simp [splitOnByte]
  | cons c rest ih =>
    by_cases hc : c = sep
    · subst hc
      rw [splitOnByte_cons_sep]
      simp
    · rw [splitOnByte_cons_ne sep c rest hc]
      simp only [List.headD_cons, List.mem_cons]
      rintro (rfl | hmem)
      · exact hc rfl
      · exact ih hmem

/-! ### Qualifier map lemmas (claim C10) -/

theorem mapFind_mapInsert (m : List (List Nat × List Nat)) (k v k' : List Nat) :
    mapFind (mapInsert m k v) k' = if k = k' then some v else mapFind m k' := by
  induction m with
  | nil => simp [mapInsert, mapFind]
  | cons kv rest ih =>
    obtain ⟨a, b⟩ := kv
    by_cases hak : a = k
    · subst hak
      by_cases hk' : a = k' <;> simp [mapInsert, mapFind, hk']
    · by_cases hak' : a = k'
      · subst hak'
        have hka : ¬ k = a := fun h => hak h.symm
        simp [mapInsert, mapFind, hak, hka]
      · simp [mapInsert, mapFind, hak, hak', ih]

theorem parseStep_eq (m : List (List Nat × List Nat)) (seg : List Nat) :
    (if seg = [] then m
      else
        match seg.findIdx? (· == 61) with
        | none => m
        | some i => mapInsert m (seg.take i) (decodeQualifierValue (seg.drop (i + 1)))) =
      match segKeyVal seg with
      | none => m
      | some kv => mapInsert m kv.1 (decodeQualifierValue kv.2) := by
  unfold segKeyVal
  by_cases h0 : seg = []
  · simp [h0]
  · cases hidx : seg.findIdx? (· == 61) <;> simp [h0, hidx]

theorem mapFind_parseQualifier_foldl (segs : List (List Nat))
    (m : List (List Nat × List Nat)) (k : List Nat) :
    mapFind
      (segs.foldl
        (fun m part =>
          if part = [] then m
          else
            match part.findIdx? (· == 61) with
            | none => m
            | some i => mapInsert m (part.take i) (decodeQualifierValue (part.drop (i + 1))))
        m) k =
      match lastQualifierBinding k segs with
      | some v => some v
      | none => mapFind m k := by
  induction segs generalizing m with
  | nil => simp [lastQualifierBinding, segKeyVal]
  | cons seg rest ih =>
    rw [List.foldl_cons, ih, parseStep_eq]
    have hfm : (seg :: rest).filterMap segKeyVal =
        match segKeyVal seg with
        | none => rest.filterMap segKeyVal
        | some kv => kv :: rest.filterMap segKeyVal := by
      cases h : segKeyVal seg <;> simp [List.filterMap_cons, h]
    cases hseg : segKeyVal seg with
    | none =>
      simp only [lastQualifierBinding, hfm, hseg]
    | some kv =>
      obtain ⟨k', v'⟩ := kv
      simp only [lastQualifierBinding, hfm, hseg]
      by_cases hk : (k' == k) = true
      · have hk' : k' = k := by simpa using hk
        subst hk'
        cases hrest : ((rest.filterMap segKeyVal).filter (fun kv => kv.1 == k')).getLast? with
        | none =>
          have hnil : (rest.filterMap segKeyVal).filter (fun kv => kv.1 == k') = [] :=
            List.getLast?_eq_none_iff.mp hrest
          simp [List.filter_cons, hk, hnil, lastQualifierBinding, hrest,
            mapFind_mapInsert]
        | some last =>
          cases hL : (rest.filterMap segKeyVal).filter (fun kv => kv.1 == k') with
          | nil =>
            rw [hL] at hrest
            simp at hrest
          | cons x xs =>
            rw [hL] at hrest
            simp [List.filter_cons, hk, lastQualifierBinding, hL,
              List.getLast?_cons_cons, hrest]
      · simp only [Bool.not_eq_true] at hk
        have hkk : ¬ k' = k := by
          intro h
          rw [h] at hk
          simp at hk
        simp [List.filter_cons, hk, lastQualifierBinding, mapFind_mapInsert, hkk]

/-- Claim C10: duplicate qualifier keys are not an error — `Parse` succeeds
exactly when it succeeds on the core segment alone — and the qualifier map
binds each key to the decoded value of the last `key=value` segment for
that key, in left-to-right order. -/
theorem c10_duplicate_qualifier_keys :
    (∀ s : List Nat,
      (∃ id, Parse s = .ok id) ↔ (∃ id, Parse ((splitOnByte 59 s).headD []) = .ok id))
    ∧ (∀ (s : List Nat) (id : Identifier), Parse s = .ok id → ∀ k,
        mapFind id.Qualifiers k = lastQualifierBinding k ((splitOnByte 59 s).tail)) := by
  constructor
  · intro s
    rw [Parse_ok_iff, Parse_ok_iff]
    have hs' : splitOnByte 59 ((splitOnByte 59 s).headD []) = [(splitOnByte 59 s).headD []] :=
      splitOnByte_no_sep 59 _ (headD_splitOnByte_not_mem 59 s)
    have hcf : coreFields ((splitOnByte 59 s).headD []) = coreFields s := by
      unfold coreFields
      rw [hs']
      rfl
    rw [hcf]
    constructor
    · rintro ⟨hne, hrest⟩
      refine ⟨?_, hrest⟩
      intro h0
      rw [show coreFields s = splitOnByte 58 ((splitOnByte 59 s).headD []) from rfl, h0] at hrest
      simp [splitOnByte] at hrest
    · rintro ⟨hne, hrest⟩
      refine ⟨?_, hrest⟩
      intro h0
      apply hne
      rw [h0]
      rfl
  · intro s id hok k
    have hs : s ≠ [] := by
      intro h0
      rw [h0] at hok
      simp [Parse] at hok
    rw [Parse_eq_of_ne_nil s hs] at hok
    split_ifs at hok
    rw [Except.ok.injEq] at hok
    subst hok
    dsimp only
    unfold parseQualifierParts
    rw [mapFind_parseQualifier_foldl]
    cases lastQualifierBinding k ((splitOnByte 59 s).tail) <;> simp [mapFind]

set_option maxRecDepth 400000 in
/-- Witness for C10: a concrete identifier with the `path` key bound twice;
the map holds the decoded value of the second binding. -/
theorem c10_duplicate_qualifier_keys_witness :
    mapFind
      (Identifier.mk (str "swh") 1 (str "cnt")
        (str "94a9ed024d3859793618152ea559a168bbcbb5e2")
        [(str "path", str "b")]).Qualifiers (str "path") =
    lastQualifierBinding (str "path")
      ((splitOnByte 59 (str "swh:1:cnt:94a9ed024d3859793618152ea559a168bbcbb5e2;path=a;path=b")).tail) :=
  c10_duplicate_qualifier_keys.2
    (str "swh:1:cnt:94a9ed024d3859793618152ea559a168bbcbb5e2;path=a;path=b")
    (Identifier.mk (str "swh") 1 (str "cnt")
      (str "94a9ed024d3859793618152ea559a168bbcbb5e2")
      [(str "path", str "b")])
    (by decide) (str "path")

/-! ### Round-trip machinery (claim C1) -/

theorem escapedForm_spec : ∀ v : List Nat, escapedForm v = true →
    59 ∉ v ∧ ∃ d, queryUnescape v = some d ∧ encodeQualifierValue d = v := by
  intro v
  induction v using escapedForm.induct with
  | case1 =>
    intro _
    exact ⟨by simp, [], rfl, rfl⟩
  | case2 rest ih =>
    intro hv
    rw [escapedForm] at hv
    obtain ⟨h59, d, hu, he⟩ := ih hv
    refine ⟨?_, 37 :: d, ?_, ?_⟩
    · simp only [List.mem_cons]
      rintro (h | h | h | h) <;> first | omega | exact h59 h
    · show queryUnescape (37 :: 50 :: 53 :: rest) = _
      simp [queryUnescape, hexVal?, hu]
    · rw [encodeQualifierValue_cons, if_pos rfl, he]
      rfl
  | case3 rest ih =>
    intro hv
    rw [escapedForm] at hv
    obtain ⟨h59, d, hu, he⟩ := ih hv
    refine ⟨?_, 59 :: d, ?_, ?_⟩
    · simp only [List.mem_cons]
      rintro (h | h | h | h) <;> first | omega | exact h59 h
    · show queryUnescape (37 :: 51 :: 66 :: rest) = _
      simp [queryUnescape, hexVal?, hu]
    · rw [encodeQualifierValue_cons]
      rw [if_neg (by omega), if_pos rfl, he]
      rfl
  | case4 a b h =>
    intro hv
    rw [escapedForm.eq_def] at hv
    split at hv <;> simp_all
  | case5 c rest h1 h2 h3 ih =>
    intro hv
    rw [escapedForm.eq_def] at hv
    split at hv <;> try simp_all
    rename_i h37' heq
    obtain ⟨hc, hr⟩ := heq
    subst hc
    subst hr
    obtain ⟨⟨h59, h43⟩, -⟩ := hv
    obtain ⟨h59m, d, hu, he⟩ := ih
    have h37 : c ≠ 37 := fun h => h37' h
    refine ⟨fun h => h59 h.symm, c :: d, ?_, ?_⟩
    · rw [queryUnescape_cons_other c rest h37 h43, hu]
      rfl
    · rw [encodeQualifierValue_cons, if_neg h37, if_neg h59, he]
      rfl

theorem isSubseqOf_mem : ∀ (as bs : List (List Nat)), isSubseqOf as bs = true →
    ∀ a ∈ as, a ∈ bs := by
  intro as bs
  induction bs generalizing as with
  | nil =>
    intro h a ha
    cases as with
    | nil => cases ha
    | cons x xs => simp [isSubseqOf] at h
  | cons b bs ih =>
    intro h a ha
    cases as with
    | nil => cases ha
    | cons x xs =>
      rw [isSubseqOf] at h
      by_cases hxb : x = b
      · rw [if_pos hxb] at h
        rcases List.mem_cons.mp ha with rfl | hxs
        · exact hxb ▸ List.mem_cons_self b bs
        · exact List.mem_cons_of_mem b (ih xs h a hxs)
      · rw [if_neg hxb] at h
        exact List.mem_cons_of_mem b (ih (x :: xs) h a ha)

theorem isSubseqOf_pairwise_ne : ∀ (as bs : List (List Nat)),
    isSubseqOf as bs = true → bs.Pairwise (· ≠ ·) → as.Pairwise (· ≠ ·) := by
  intro as bs
  induction bs generalizing as with
  | nil =>
    intro h _
    cases as with
    | nil => exact List.Pairwise.nil
    | cons x xs => simp [isSubseqOf] at h
  | cons b bs ih =>
    intro h hp
    cases as with
    | nil => exact List.Pairwise.nil
    | cons x xs =>
      rw [isSubseqOf] at h
      rcases List.pairwise_cons.mp hp with ⟨hb, hbs⟩
      by_cases hxb : x = b
      · rw [if_pos hxb] at h
        subst hxb
        refine List.pairwise_cons.mpr ⟨?_, ih xs h hbs⟩
        intro a' ha'
        exact hb a' (isSubseqOf_mem xs bs h a' ha')
      · rw [if_neg hxb] at h
        exact ih (x :: xs) h hbs

theorem mapFind_eq_none_of_not_mem : ∀ (m : List (List Nat × List Nat)) (k : List Nat),
    k ∉ m.map Prod.fst → mapFind m k = none := by
  intro m k
  induction m with
  | nil => intro _; rfl
  | cons kv rest ih =>
    intro h
    obtain ⟨a, b⟩ := kv
    simp only [List.map_cons, List.mem_cons] at h
    rw [mapFind, if_neg (fun he => h (Or.inl he.symm))]
    exact ih (fun hm => h (Or.inr hm))

theorem mapInsert_eq_append (m : List (List Nat × List Nat)) (k v : List Nat)
    (h : mapFind m k = none) : mapInsert m k v = m ++ [(k, v)] := by
  induction m with
  | nil => rfl
  | cons kv rest ih =>
    obtain ⟨a, b⟩ := kv
    rw [mapFind] at h
    by_cases hak : a = k
    · rw [if_pos hak] at h
      cases h
    · rw [if_neg hak] at h
      rw [mapInsert, if_neg hak, ih h]
      rfl

theorem mapFind_append (a b : List (List Nat × List Nat)) (k : List Nat) :
    mapFind (a ++ b) k =
      match mapFind a k with
      | some v => some v
      | none => mapFind b k := by
  induction a with
  | nil => rfl
  | cons kv rest ih =>
    obtain ⟨x, y⟩ := kv
    by_cases hxk : x = k <;> simp [mapFind, hxk, ih]

theorem findIdx_key_eq (k v : List Nat) (h61 : 61 ∉ k) :
    (k ++ 61 :: v).findIdx? (· == 61) = some k.length
    ∧ (k ++ 61 :: v).take k.length = k
    ∧ (k ++ 61 :: v).drop (k.length + 1) = v := by
  induction k with
  | nil => simp
  | cons c ks ih =>
    have hc : c ≠ 61 := fun he => h61 (he ▸ List.mem_cons_self c ks)
    have hks : 61 ∉ ks := fun hm => h61 (List.mem_cons_of_mem _ hm)
    obtain ⟨h1, h2, h3⟩ := ih hks
    refine ⟨?_, ?_, ?_⟩
    · rw [List.cons_append, List.findIdx?_cons, if_neg (by simpa using hc), List.findIdx?_succ, h1]
      rfl
    · rw [List.cons_append, List.length_cons, List.take_succ_cons, h2]
    · rw [List.cons_append, List.length_cons]
      show (c :: (ks ++ 61 :: v)).drop (ks.length + 1 + 1) = v
      rw [List.drop_succ_cons, h3]

theorem splitOnByte_qualifierSegments : ∀ (qs : List (List Nat × List Nat)) (core : List Nat),
    59 ∉ core → (∀ kv ∈ qs, 59 ∉ kv.1 ∧ 59 ∉ kv.2) →
    splitOnByte 59 (core ++ qualifierSegments qs) =
      core :: qs.map (fun kv => kv.1 ++ 61 :: kv.2) := by
  intro qs
  induction qs with
  | nil =>
    intro core hc _
    rw [qualifierSegments, List.append_nil, splitOnByte_no_sep 59 core hc]
    rfl
  | cons kv rest ih =>
    intro core hc hkv
    obtain ⟨k, v⟩ := kv
    show splitOnByte 59 (core ++ (59 :: ((k ++ 61 :: v) ++ qualifierSegments rest))) = _
    rw [splitOnByte_append_sep]
    rw [splitOnByte_no_sep 59 core hc]
    have hseg : (59 : Nat) ∉ k ++ 61 :: v := by
      intro hm
      rcases List.mem_append.mp hm with hk | hv
      · exact (hkv (k, v) (List.mem_cons_self _ _)).1 hk
      · rcases List.mem_cons.mp hv with he | hv'
        · omega
        · exact (hkv (k, v) (List.mem_cons_self _ _)).2 hv'
    rw [ih (k ++ 61 :: v) hseg (fun kv h => hkv kv (List.mem_cons_of_mem _ h))]
    rfl

theorem parseQualifierParts_foldl_clean :
    ∀ (qs : List (List Nat × List Nat)) (m : List (List Nat × List Nat)),
    (∀ kv ∈ qs, 61 ∉ kv.1) →
    (qs.map Prod.fst).Pairwise (· ≠ ·) →
    (∀ kv ∈ qs, mapFind m kv.1 = none) →
    (qs.map (fun kv => kv.1 ++ 61 :: kv.2)).foldl
      (fun m part =>
        if part = [] then m
        else
          match part.findIdx? (· == 61) with
          | none => m
          | some i => mapInsert m (part.take i) (decodeQualifierValue (part.drop (i + 1))))
      m =
    m ++ qs.map (fun kv => (kv.1, decodeQualifierValue kv.2)) := by
  intro qs
  induction qs with
  | nil =>
    intro m _ _ _
    simp
  | cons kv rest ih =>
    intro m h61 hpair hfresh
    obtain ⟨k, v⟩ := kv
    have hk61 : 61 ∉ k := h61 (k, v) (List.mem_cons_self _ _)
    obtain ⟨hidx, htake, hdrop⟩ := findIdx_key_eq k v hk61
    have hne : k ++ 61 :: v ≠ [] := by simp
    rw [List.map_cons, List.foldl_cons, if_neg hne, hidx]
    simp only [htake, hdrop]
    rw [mapInsert_eq_append m k _ (hfresh (k, v) (List.mem_cons_self _ _))]
    rw [List.map_cons] at hpair
    obtain ⟨hhead, htail⟩ := List.pairwise_cons.mp hpair
    rw [ih (m ++ [(k, decodeQualifierValue v)])
      (fun kv h => h61 kv (List.mem_cons_of_mem _ h))
      htail
      ?_]
    · simp
    · intro kv hkv
      rw [mapFind_append, hfresh kv (List.mem_cons_of_mem _ hkv)]
      have hkne : k ≠ kv.1 := hhead kv.1 (List.mem_map_of_mem Prod.fst hkv)
      rw [mapFind, if_neg hkne]
      rfl

theorem filterMap_mapFind_subseq (g : List Nat → List Nat → List Nat) :
    ∀ (keys : List (List Nat)) (m : List (List Nat × List Nat)),
    isSubseqOf (m.map Prod.fst) keys = true →
    keys.Pairwise (· ≠ ·) →
    keys.filterMap (fun key => (mapFind m key).map (g key)) =
      m.map (fun kv => g kv.1 kv.2) := by
  intro keys
  induction keys with
  | nil =>
    intro m hsub _
    cases m with
    | nil => rfl
    | cons kv rest => simp [isSubseqOf] at hsub
  | cons key keys ih =>
    intro m hsub hpair
    obtain ⟨hkey, htail⟩ := List.pairwise_cons.mp hpair
    cases m with
    | nil =>
      simp [mapFind]
    | cons kv rest =>
      obtain ⟨k, v⟩ := kv
      rw [List.map_cons] at hsub
      rw [isSubseqOf] at hsub
      by_cases hk : k = key
      · rw [if_pos hk] at hsub
        subst hk
        rw [List.filterMap_cons]
        rw [show mapFind ((k, v) :: rest) k = some v from by rw [mapFind, if_pos rfl]]
        have hcg : keys.filterMap (fun key => (mapFind ((k, v) :: rest) key).map (g key)) =
            keys.filterMap (fun key => (mapFind rest key).map (g key)) := by
          apply List.filterMap_congr
          intro key' hkey'
          have hne : k ≠ key' := hkey key' hkey'
          rw [mapFind, if_neg hne]
        rw [hcg, ih rest hsub htail]
        rfl
      · rw [if_neg hk] at hsub
        rw [List.filterMap_cons]
        have hnone : mapFind ((k, v) :: rest) key = none := by
          apply mapFind_eq_none_of_not_mem
          intro hmem
          have := isSubseqOf_mem _ _ hsub key hmem
          exact hkey key this rfl
        rw [hnone]
        exact ih ((k, v) :: rest) hsub htail

theorem joinWith_qualifierSegments : ∀ qs : List (List Nat × List Nat), qs ≠ [] →
    59 :: joinWith 59 (qs.map (fun kv => kv.1 ++ 61 :: kv.2)) = qualifierSegments qs := by
  intro qs
  induction qs with
  | nil => intro h; exact absurd rfl h
  | cons kv rest ih =>
    intro _
    obtain ⟨k, v⟩ := kv
    cases rest with
    | nil =>
      show 59 :: joinWith 59 [k ++ 61 :: v] = 59 :: (k ++ 61 :: v) ++ qualifierSegments []
      rw [joinWith, qualifierSegments]
      simp
    | cons kv' rest' =>
      show 59 :: joinWith 59 ((k ++ 61 :: v) :: (kv' :: rest').map _) = _
      rw [show joinWith 59 ((k ++ 61 :: v) :: (kv' :: rest').map (fun kv => kv.1 ++ 61 :: kv.2)) =
        (k ++ 61 :: v) ++ 59 :: joinWith 59 ((kv' :: rest').map (fun kv => kv.1 ++ 61 :: kv.2)) from by
          rw [joinWith.eq_def]
          simp]
      rw [ih (by simp)]
      simp [qualifierSegments]

theorem validType_clean : ∀ t ∈ validObjectTypes, 59 ∉ t ∧ 58 ∉ t := by decide

theorem canonical_clean : ∀ k ∈ canonicalQualifierOrder, 59 ∉ k ∧ 61 ∉ k := by decide

theorem canonical_pairwise_ne : canonicalQualifierOrder.Pairwise (· ≠ ·) := by
  simp [canonicalQualifierOrder]
  decide

theorem hashRegex_clean (h : List Nat) (hh : hashRegexMatch h = true) : 59 ∉ h ∧ 58 ∉ h := by
  unfold hashRegexMatch at hh
  rw [Bool.and_eq_true] at hh
  have hall := List.all_eq_true.mp hh.2
  constructor
  · intro hm
    have := hall 59 hm
    simp [isHexLower] at this
  · intro hm
    have := hall 58 hm
    simp [isHexLower] at this

/-- Claim C1 (amended): for every syntactically valid identifier string in
which the qualifier keys form a subsequence of the canonical key order and
every qualifier value is in the escaped form produced by the encoder
(escapes only `%25`/`%3B`, no raw `;`, and no `+` — the generic query
decoder used on parse also rewrites `+` to a space), parsing and
re-formatting reproduces the string exactly. -/
theorem c1_parse_format_roundtrip (ot h : List Nat) (qs : List (List Nat × List Nat))
    (hot : ot ∈ validObjectTypes)
    (hh : hashRegexMatch h = true)
    (hsub : isSubseqOf (qs.map Prod.fst) canonicalQualifierOrder = true)
    (hesc : ∀ kv ∈ qs, escapedForm kv.2 = true) :
    (Parse ((str "swh:1:" ++ ot ++ 58 :: h) ++ qualifierSegments qs)).map IdentifierString =
      .ok ((str "swh:1:" ++ ot ++ 58 :: h) ++ qualifierSegments qs) := by
  obtain ⟨hot59, hot58⟩ := validType_clean ot hot
  obtain ⟨hh59, hh58⟩ := hashRegex_clean h hh
  have hkeysmem : ∀ kv ∈ qs, kv.1 ∈ canonicalQualifierOrder := fun kv hkv =>
    isSubseqOf_mem _ _ hsub kv.1 (List.mem_map_of_mem Prod.fst hkv)
  have hclean : ∀ kv ∈ qs, 59 ∉ kv.1 ∧ 59 ∉ kv.2 := by
    intro kv hkv
    exact ⟨(canonical_clean kv.1 (hkeysmem kv hkv)).1,
      (escapedForm_spec kv.2 (hesc kv hkv)).1⟩
  have hcore59 : (59 : Nat) ∉ str "swh:1:" ++ ot ++ 58 :: h := by
    intro hm
    rcases List.mem_append.mp hm with hx | hx
    · rcases List.mem_append.mp hx with hy | hy
      · exact absurd hy (by decide)
      · exact hot59 hy
    · rcases List.mem_cons.mp hx with he | hy
      · omega
      · exact hh59 hy
  have hsplit59 : splitOnByte 59 ((str "swh:1:" ++ ot ++ 58 :: h) ++ qualifierSegments qs) =
      (str "swh:1:" ++ ot ++ 58 :: h) :: qs.map (fun kv => kv.1 ++ 61 :: kv.2) :=
    splitOnByte_qualifierSegments qs _ hcore59 hclean
  have hcore_eq : str "swh:1:" ++ ot ++ 58 :: h =
      str "swh" ++ 58 :: (str "1" ++ 58 :: (ot ++ 58 :: h)) := rfl
  have hsplit58 : splitOnByte 58 (str "swh:1:" ++ ot ++ 58 :: h) =
      [str "swh", str "1", ot, h] := by
    rw [hcore_eq, splitOnByte_append_sep, splitOnByte_no_sep 58 (str "swh") (by decide),
      splitOnByte_append_sep, splitOnByte_no_sep 58 (str "1") (by decide),
      splitOnByte_append_sep, splitOnByte_no_sep 58 ot hot58,
      splitOnByte_no_sep 58 h hh58]
    rfl
  have hne : (str "swh:1:" ++ ot ++ 58 :: h) ++ qualifierSegments qs ≠ [] := by
    simp
  have hcf : coreFields ((str "swh:1:" ++ ot ++ 58 :: h) ++ qualifierSegments qs) =
      [str "swh", str "1", ot, h] := by
    unfold coreFields
    rw [hsplit59]
    exact hsplit58
  have hquals : parseQualifierParts (qs.map (fun kv => kv.1 ++ 61 :: kv.2)) =
      qs.map (fun kv => (kv.1, decodeQualifierValue kv.2)) := by
    unfold parseQualifierParts
    rw [parseQualifierParts_foldl_clean qs []
      (fun kv hkv => (canonical_clean kv.1 (hkeysmem kv hkv)).2)
      (isSubseqOf_pairwise_ne _ _ hsub canonical_pairwise_ne)
      (fun kv _ => rfl)]
    rfl
  have hP : Parse ((str "swh:1:" ++ ot ++ 58 :: h) ++ qualifierSegments qs) =
      .ok ⟨str "swh", 1, ot, h, qs.map (fun kv => (kv.1, decodeQualifierValue kv.2))⟩ := by
    rw [Parse_eq_of_ne_nil _ hne, hcf]
    rw [if_neg (by simp), if_neg (by simp), if_neg (by simp),
      if_neg (by simp [hot]), if_neg (by simp [hh])]
    rw [show (splitOnByte 59 ((str "swh:1:" ++ ot ++ 58 :: h) ++ qualifierSegments qs)).tail =
        qs.map (fun kv => kv.1 ++ 61 :: kv.2) from by rw [hsplit59]; rfl]
    rw [hquals]
    rfl
  rw [hP]
  rw [Except.map]
  congr 1
  show IdentifierString
    ⟨str "swh", 1, ot, h, qs.map (fun kv => (kv.1, decodeQualifierValue kv.2))⟩ = _
  have hCore : ∀ Q, CoreSWHID ⟨str "swh", 1, ot, h, Q⟩ =
      str "swh:1:" ++ ot ++ 58 :: h := by
    intro Q
    show str "swh" ++ 58 :: decDigits 1 ++ 58 :: ot ++ 58 :: h = _
    rw [hcore_eq]
    rfl
  cases hqs : qs with
  | nil =>
    rw [IdentifierString, if_pos (by simp), hCore]
    simp [qualifierSegments]
  | cons kv rest =>
    subst hqs
    rw [IdentifierString, if_neg (by simp), hCore]
    have hremain : ((kv :: rest).map (fun kv => (kv.1, decodeQualifierValue kv.2))).filterMap
        (fun kv => if kv.1 ∈ canonicalQualifierOrder then none
          else some (kv.1 ++ 61 :: encodeQualifierValue kv.2)) = [] := by
      rw [List.filterMap_eq_nil_iff]
      intro a ha
      rw [List.mem_map] at ha
      obtain ⟨b, hb, rfl⟩ := ha
      rw [if_pos (hkeysmem b hb)]
    have hfst : ((kv :: rest).map (fun kv => (kv.1, decodeQualifierValue kv.2))).map Prod.fst =
        (kv :: rest).map Prod.fst := by
      rw [List.map_map]
      exact List.map_congr_left (fun a _ => rfl)
    have hcanon : canonicalQualifierOrder.filterMap
        (fun key => (mapFind ((kv :: rest).map (fun kv => (kv.1, decodeQualifierValue kv.2))) key).map
          (fun value => key ++ 61 :: encodeQualifierValue value)) =
        ((kv :: rest).map (fun kv => (kv.1, decodeQualifierValue kv.2))).map
          (fun kv => kv.1 ++ 61 :: encodeQualifierValue kv.2) :=
      filterMap_mapFind_subseq (fun key value => key ++ 61 :: encodeQualifierValue value)
        canonicalQualifierOrder _ (by rw [hfst]; exact hsub) canonical_pairwise_ne
    have hmapeq : ((kv :: rest).map (fun kv => (kv.1, decodeQualifierValue kv.2))).map
        (fun kv => kv.1 ++ 61 :: encodeQualifierValue kv.2) =
        (kv :: rest).map (fun kv => kv.1 ++ 61 :: kv.2) := by
      rw [List.map_map]
      apply List.map_congr_left
      intro a ha
      have hesc' := hesc a ha
      obtain ⟨-, d, hu, he⟩ := escapedForm_spec a.2 hesc'
      show a.1 ++ 61 :: encodeQualifierValue (decodeQualifierValue a.2) = a.1 ++ 61 :: a.2
      rw [show decodeQualifierValue a.2 = d from by unfold decodeQualifierValue; rw [hu]; rfl, he]
    rw [show formatQualifiers ((kv :: rest).map (fun kv => (kv.1, decodeQualifierValue kv.2))) =
        joinWith 59 ((kv :: rest).map (fun kv => kv.1 ++ 61 :: kv.2)) from by
      unfold formatQualifiers
      rw [hremain, List.append_nil, hcanon, hmapeq]]
    rw [← joinWith_qualifierSegments (kv :: rest) (by simp)]

set_option maxRecDepth 400000 in
/-- Claim C1 is false as stated: `";path=a+b"` uses only the escaped
character set (no escapes at all), is accepted by `Parse`, but re-formats to
`";path=a b"` because the parse-side decoder also rewrites `+` to a space. -/
theorem c1_counterexample :
    (Parse (str "swh:1:cnt:94a9ed024d3859793618152ea559a168bbcbb5e2;path=a+b")).map
        IdentifierString =
      .ok (str "swh:1:cnt:94a9ed024d3859793618152ea559a168bbcbb5e2;path=a b")
    ∧ str "swh:1:cnt:94a9ed024d3859793618152ea559a168bbcbb5e2;path=a b" ≠
      str "swh:1:cnt:94a9ed024d3859793618152ea559a168bbcbb5e2;path=a+b" := by
  refine ⟨by decide, by decide⟩

set_option maxRecDepth 400000 in
/-- Witness for C1 at a concrete identifier with two canonical qualifiers,
one value carrying a `%25` escape. -/
theorem c1_parse_format_roundtrip_witness :
    (Parse ((str "swh:1:" ++ str "cnt" ++ 58 :: str "94a9ed024d3859793618152ea559a168bbcbb5e2") ++
        qualifierSegments
          [(str "origin", str "https://example.com/a%25b"), (str "path", str "x/y")])).map
      IdentifierString =
    .ok ((str "swh:1:" ++ str "cnt" ++ 58 :: str "94a9ed024d3859793618152ea559a168bbcbb5e2") ++
        qualifierSegments
          [(str "origin", str "https://example.com/a%25b"), (str "path", str "x/y")]) :=
  c1_parse_format_roundtrip (str "cnt") (str "94a9ed024d3859793618152ea559a168bbcbb5e2")
    [(str "origin", str "https://example.com/a%25b"), (str "path", str "x/y")]
    (by decide) (by decide) (by decide) (by decide)
